import Mathlib

set_option autoImplicit false

/-!
Shallow embedding of the RoleBaker core (src/index.ts): the decision engine
`hasPermission` and the report generator `generatePermissionDocs`, both closed
over the configuration passed to `bakeAuthorization` (`userRoleMode`,
`permissionsConfig`, `actionDocsConfig`).  JavaScript objects are modelled as
association lists, which preserve the `Object.keys` insertion order; absent
values are `Option.none`; the runtime `TypeError` raised by dereferencing
`undefined` is the `Except.error` case.
-/

namespace RoleBaker

/-- The `RoleModeBase` flag from the source: `"multiRole" | "singleRole"`. -/
inductive RoleModeBase where
  | multiRole
  | singleRole
deriving DecidableEq, Repr

/-- An authenticated user object.  At runtime a JS object may carry a `role`
field (single-role variant), a `roles` field (multi-role variant), both, or
neither; `P` is the rest of the object (e.g. a `userId`), consumed only by
conditional predicates. -/
structure BaseAuthUser (P : Type) where
  role : Option String
  roles : Option (List String)
  payload : P

/-- `PermissionValidation`: a rule is a plain boolean or a conditional object
with a `checkFunction` predicate and a `description`.  Both fields are typed as
required in TypeScript but can be absent at runtime — the source tolerates an
absent `checkFunction` via the optional call `checkFunction?.(...)` and an
absent `description` via template-literal stringification, so both are
`Option` here.  The predicate result is `Option Bool`: `none` models a nullish
(`undefined`/`null`) result, which the source coalesces to `false`. -/
inductive PermissionValidation (P D : Type) where
  | bool (b : Bool)
  | cond (checkFunction : Option (BaseAuthUser P → Option D → Option Bool))
      (description : Option String)

/-- The permission table: role → resource → action → rule, with the
caller-supplied key order preserved. -/
abbrev PermissionsConfig (P D : Type) : Type :=
  List (String × List (String × List (String × PermissionValidation P D)))

/-- The `actionDescriptions` table: resource → action → description, with the
inner single-field record `\x7b description: string \x7d` collapsed to the
string it holds. -/
abbrev ActionDescriptionConfig : Type :=
  List (String × List (String × String))

/-- The optional-chained rule lookup
`permissionsConfig[role]?.[resource]?.[action]` used by `hasPermission`. -/
def lookupRule {P D : Type} (cfg : PermissionsConfig P D)
    (role resource action : String) : Option (PermissionValidation P D) :=
  (List.lookup role cfg).bind fun roleConfig =>
    (List.lookup resource roleConfig).bind fun resourceConfig =>
      List.lookup action resourceConfig

/-- The optional predicate call `checkFunction?.(authUser, resourceData) ?? false`:
an absent `checkFunction` and a nullish predicate result both coalesce to
`false`. -/
def jsCheckCall {P D : Type}
    (checkFunction : Option (BaseAuthUser P → Option D → Option Bool))
    (authUser : BaseAuthUser P) (resourceData : Option D) : Bool :=
  match checkFunction with
  | none => false
  | some f => (f authUser resourceData).getD false

/-- Evaluation of one looked-up rule:
`typeof v === "boolean" ? v : v.checkFunction?.(authUser, resourceData) ?? false`. -/
def evalValidation {P D : Type} (v : PermissionValidation P D)
    (authUser : BaseAuthUser P) (resourceData : Option D) : Bool :=
  match v with
  | .bool b => b
  | .cond cf _ => jsCheckCall cf authUser resourceData

/-- The per-role decision inside `hasPermission`: the looked-up rule with a
missing rule coalesced to `false` by `?? false`, then evaluated. -/
def evalRoleRule {P D : Type} (cfg : PermissionsConfig P D) (role : String)
    (authUser : BaseAuthUser P) (resource action : String)
    (resourceData : Option D) : Bool :=
  match lookupRule cfg role resource action with
  | none => false
  | some v => evalValidation v authUser resourceData

/-- JS falsiness of the string-typed `role` field checked by `!authUser.role`:
the field is absent or the empty string. -/
def roleFalsy : Option String → Bool
  | none => true
  | some s => s == ""

/-- The decision engine `hasPermission` (src/index.ts lines 182–211), with the
configuration captured by the `bakeAuthorization` closure passed explicitly. -/
def hasPermission {P D : Type} (userRoleMode : RoleModeBase)
    (permissionsConfig : PermissionsConfig P D)
    (authUser : Option (BaseAuthUser P)) (resource action : String)
    (resourceData : Option D) : Bool :=
  match authUser with
  | none => false
  | some u =>
    match userRoleMode with
    | .multiRole =>
      match u.roles with
      | none => false
      | some rs =>
        if rs.length = 0 then false
        else rs.any fun role =>
          evalRoleRule permissionsConfig role u resource action resourceData
    | .singleRole =>
      if roleFalsy u.role then false
      else evalRoleRule permissionsConfig (u.role.getD "") u resource action
        resourceData

/-- JS `Set.prototype.add`: first insertion keeps its position, duplicates are
ignored. -/
def setAdd (s : List String) (a : String) : List String :=
  if s.contains a then s else s ++ [a]

/-- Merge one `(resourceName, actionNames)` group into the
`Map<ResourceName, Set<ActionName>>`: an existing key keeps its position and
its action set is extended in place, a new key is appended (JS `Map`
semantics). -/
def addActions : List (String × List String) → String → List String →
    List (String × List String)
  | [], rn, ans => [(rn, ans.foldl setAdd [])]
  | (k, s) :: rest, rn, ans =>
    if k == rn then (k, ans.foldl setAdd s) :: rest
    else (k, s) :: addActions rest rn ans

/-- The inner discovery loop over one role's resource entries
(src/index.ts lines 224–238). -/
def addRoleResources {P D : Type} :
    List (String × List String) →
    List (String × List (String × PermissionValidation P D)) →
    List (String × List String)
  | m, [] => m
  | m, (rn, acts) :: rest =>
    addRoleResources (addActions m rn (acts.map Prod.fst)) rest

/-- The outer discovery loop over the roles (src/index.ts lines 221–239). -/
def discoverPairsAux {P D : Type} :
    List (String × List String) → PermissionsConfig P D →
    List (String × List String)
  | m, [] => m
  | m, (_, roleConfig) :: rest =>
    discoverPairsAux (addRoleResources m roleConfig) rest

/-- `mapResourceNameToActions`: every resource name appearing under any role,
each with the union of the action names configured for it, in discovery
order. -/
def mapResourceNameToActions {P D : Type} (cfg : PermissionsConfig P D) :
    List (String × List String) :=
  discoverPairsAux [] cfg

/-- The resource→actions map flattened to `(resource, action)` pairs in
iteration order. -/
def flatPairs : List (String × List String) → List (String × String)
  | [] => []
  | (rn, ans) :: rest => ans.map (fun a => (rn, a)) ++ flatPairs rest

/-- The status computed for one (role, resource, action) report cell
(src/index.ts lines 247–272).  A conditional rule renders
`Conditional: ${description}`; when the `description` field is absent at
runtime the template literal stringifies it to the placeholder text
`undefined`. -/
def cellStatus {P D : Type} (cfg : PermissionsConfig P D)
    (role resource action : String) : String :=
  match List.lookup role cfg with
  | none => "Denied"
  | some roleConfig =>
    match List.lookup resource roleConfig with
    | none => "Denied"
    | some resourceConfig =>
      match List.lookup action resourceConfig with
      | none => "Denied"
      | some (.bool b) => if b then "Allowed" else "Denied"
      | some (.cond _ d) => "Conditional: " ++ d.getD "undefined"

/-- The row-description lookup
`actionDocsConfig.actionDescriptions[resource][action].description`
(src/index.ts line 281).  The `actionDocsConfig` field is typed as required but
the singleRole test suite constructs the engine without it, so it is `Option`
here; every dereference of `undefined` raises a `TypeError`, modelled as
`Except.error`. -/
def lookupDescription (actionDocsConfig : Option ActionDescriptionConfig)
    (resource action : String) : Except String String :=
  match actionDocsConfig with
  | none =>
    .error "TypeError: Cannot read properties of undefined (reading actionDescriptions)"
  | some docs =>
    match List.lookup resource docs with
    | none =>
      .error "TypeError: Cannot read properties of undefined (reading the action key)"
    | some acts =>
      match List.lookup action acts with
      | none =>
        .error "TypeError: Cannot read properties of undefined (reading description)"
      | some d => .ok d

/-- One report row `[resource, action, permissionDescription, ...statuses]`,
with one status per role in role order (src/index.ts lines 280–292). -/
def buildRow {P D : Type} (cfg : PermissionsConfig P D) (roles : List String)
    (actionDocsConfig : Option ActionDescriptionConfig)
    (resource action : String) : Except String (List String) :=
  (lookupDescription actionDocsConfig resource action).map fun d =>
    resource :: action :: d ::
      roles.map fun role => cellStatus cfg role resource action

/-- The row loop (src/index.ts lines 277–294): it stops at the first raised
`TypeError`, like the JS `for` loop. -/
def buildRows {P D : Type} (cfg : PermissionsConfig P D) (roles : List String)
    (actionDocsConfig : Option ActionDescriptionConfig) :
    List (String × String) → Except String (List (List String))
  | [] => .ok []
  | (resource, action) :: rest =>
    match buildRow cfg roles actionDocsConfig resource action with
    | .error e => .error e
    | .ok row =>
      match buildRows cfg roles actionDocsConfig rest with
      | .error e => .error e
      | .ok rows => .ok (row :: rows)

/-- One column descriptor of the report header. -/
structure HeaderColumn where
  columnName : String
  isRole : Bool
deriving DecidableEq, Repr

/-- The `PermissionDocumentationReport` record returned by
`generatePermissionDocs`. -/
structure PermissionDocumentationReport where
  userRoleMode : RoleModeBase
  report : List (String × List (String × List (String × String)))
  reportHeader : List HeaderColumn
  reportRows : List (List String)
deriving DecidableEq, Repr

/-- The nested `report` record: resource → action → role → status
(src/index.ts lines 241–275). -/
def buildReportMap {P D : Type} (cfg : PermissionsConfig P D)
    (roles : List String) (m : List (String × List String)) :
    List (String × List (String × List (String × String))) :=
  m.map fun ra =>
    (ra.1, ra.2.map fun action =>
      (action, roles.map fun role => (role, cellStatus cfg role ra.1 action)))

/-- The report generator `generatePermissionDocs` (src/index.ts lines 217–321),
with the captured configuration passed explicitly.  A raised `TypeError` is the
`Except.error` case. -/
def generatePermissionDocs {P D : Type} (userRoleMode : RoleModeBase)
    (permissionsConfig : PermissionsConfig P D)
    (actionDocsConfig : Option ActionDescriptionConfig) :
    Except String PermissionDocumentationReport :=
  match buildRows permissionsConfig (permissionsConfig.map Prod.fst)
      actionDocsConfig
      (flatPairs (mapResourceNameToActions permissionsConfig)) with
  | .error e => .error e
  | .ok rows =>
    .ok { userRoleMode := userRoleMode
          report := buildReportMap permissionsConfig
            (permissionsConfig.map Prod.fst)
            (mapResourceNameToActions permissionsConfig)
          reportHeader :=
            ⟨"resourceArea", false⟩ :: ⟨"permission", false⟩ ::
              ⟨"permissionDescription", false⟩ ::
              (permissionsConfig.map Prod.fst).map fun r => ⟨r, true⟩
          reportRows := rows }

/-- Lookup of one status cell in the nested `report` record of a generated
documentation report. -/
def reportCell (rep : PermissionDocumentationReport)
    (resource action role : String) : Option String :=
  (List.lookup resource rep.report).bind fun actionMap =>
    (List.lookup action actionMap).bind fun roleMap =>
      List.lookup role roleMap

/-- The (resource, action) pair is present in the resource→actions map. -/
def pairMem (m : List (String × List String)) (resource action : String) :
    Prop :=
  ∃ e ∈ m, e.1 = resource ∧ action ∈ e.2

/-- The (resource, action) pair is configured under at least one role of the
permission table. -/
def appearsInConfig {P D : Type} (cfg : PermissionsConfig P D)
    (resource action : String) : Prop :=
  ∃ e ∈ cfg, ∃ re ∈ e.2, re.1 = resource ∧ ∃ ae ∈ re.2, ae.1 = action

/-- The payload of the example users of the test suite: a `userId`. -/
structure TodoUser where
  userId : String
deriving DecidableEq, Repr

/-- The to-do instance data of the example configuration. -/
structure ToDo where
  title : String
  descr : String
  authorId : String
deriving DecidableEq, Repr

/-- The example conditional predicate
`(authUser, todo) => todo?.authorId === authUser.userId`. -/
def todoDeleteCheck : BaseAuthUser TodoUser → Option ToDo → Option Bool :=
  fun u d => some (decide (d.map ToDo.authorId = some u.payload.userId))

/-- The example permission table from the test suite and §8 of the spec. -/
def exampleConfig : PermissionsConfig TodoUser ToDo :=
  [ ("admin",
      [("todos", [("read", .bool true), ("write", .bool true),
        ("delete", .bool true)])]),
    ("moderator",
      [("todos", [("read", .bool true), ("write", .bool false),
        ("delete", .bool false)])]),
    ("user",
      [("todos", [("read", .bool true), ("write", .bool false),
        ("delete", .cond (some todoDeleteCheck)
          (some "Only the author can delete their own to-dos"))])]),
    ("betaTester",
      [("betaResource", [("view", .bool true)])]) ]

/-- The example action-description table from the test suite. -/
def exampleDocs : ActionDescriptionConfig :=
  [ ("todos", [("read", "Read to-dos"), ("write", "Write to-dos"),
      ("delete", "Delete to-dos")]),
    ("betaResource", [("view", "View beta resource")]) ]

/-- The report generated for the example configuration and description
table. -/
def exampleReport : PermissionDocumentationReport :=
  { userRoleMode := .singleRole
    report :=
      [ ("todos",
          [ ("read",
              [("admin", "Allowed"), ("moderator", "Allowed"),
               ("user", "Allowed"), ("betaTester", "Denied")]),
            ("write",
              [("admin", "Allowed"), ("moderator", "Denied"),
               ("user", "Denied"), ("betaTester", "Denied")]),
            ("delete",
              [("admin", "Allowed"), ("moderator", "Denied"),
               ("user", "Conditional: Only the author can delete their own to-dos"),
               ("betaTester", "Denied")]) ]),
        ("betaResource",
          [ ("view",
              [("admin", "Denied"), ("moderator", "Denied"),
               ("user", "Denied"), ("betaTester", "Allowed")]) ]) ]
    reportHeader :=
      [ ⟨"resourceArea", false⟩, ⟨"permission", false⟩,
        ⟨"permissionDescription", false⟩, ⟨"admin", true⟩,
        ⟨"moderator", true⟩, ⟨"user", true⟩, ⟨"betaTester", true⟩ ]
    reportRows :=
      [ ["todos", "read", "Read to-dos", "Allowed", "Allowed", "Allowed",
         "Denied"],
        ["todos", "write", "Write to-dos", "Allowed", "Denied", "Denied",
         "Denied"],
        ["todos", "delete", "Delete to-dos", "Allowed", "Denied",
         "Conditional: Only the author can delete their own to-dos", "Denied"],
        ["betaResource", "view", "View beta resource", "Denied", "Denied",
         "Denied", "Allowed"] ] }

/-- Sanity check: the generator reproduces the example report. -/
example :
    generatePermissionDocs .singleRole exampleConfig (some exampleDocs) =
      .ok exampleReport := rfl

/-- Claim C1: for every configuration, role mode, resource, action and resource
data, calling `hasPermission` with an absent (null) principal returns `false`.
The equation holds definitionally — the null check is the first branch of the
function, before any role inspection — so it needs no assumption at all about
the role mode or the table. -/
theorem hasPermission_null_fail_closed {P D : Type} (userRoleMode : RoleModeBase)
    (cfg : PermissionsConfig P D) (resource action : String)
    (resourceData : Option D) :
    hasPermission userRoleMode cfg none resource action resourceData = false :=
  rfl

/-- Claim C2: every lookup gap resolves to `false` without raising: in
multi-role mode an absent or empty `roles` sequence; in single-role mode an
absent or falsy `role` field; and in either mode a permission table with no
entry for the (role, resource, action) being checked. -/
theorem hasPermission_gaps_denied {P D : Type} :
    (∀ (cfg : PermissionsConfig P D) (u : BaseAuthUser P) (r a : String)
        (d : Option D),
        u.roles = none ∨ u.roles = some [] →
        hasPermission .multiRole cfg (some u) r a d = false) ∧
    (∀ (cfg : PermissionsConfig P D) (u : BaseAuthUser P) (r a : String)
        (d : Option D),
        u.role = none ∨ u.role = some "" →
        hasPermission .singleRole cfg (some u) r a d = false) ∧
    (∀ (cfg : PermissionsConfig P D) (u : BaseAuthUser P) (r a : String)
        (d : Option D),
        (∀ role ∈ u.roles.getD [], lookupRule cfg role r a = none) →
        hasPermission .multiRole cfg (some u) r a d = false) ∧
    (∀ (cfg : PermissionsConfig P D) (u : BaseAuthUser P) (role r a : String)
        (d : Option D),
        u.role = some role → lookupRule cfg role r a = none →
        hasPermission .singleRole cfg (some u) r a d = false) := by
  refine ⟨?_, ?_, ?_, ?_⟩
  · intro cfg u r a d h
    rcases h with h | h <;> simp [hasPermission, h]
  · intro cfg u r a d h
    rcases h with h | h <;> simp [hasPermission, roleFalsy, h]
  · intro cfg u r a d h
    cases hrs : u.roles with
    | none => simp [hasPermission, hrs]
    | some rs =>
      rw [hrs] at h
      simp only [Option.getD_some] at h
      by_cases hlen : rs.length = 0
      · simp [hasPermission, hrs, hlen]
      · simp only [hasPermission, hrs, if_neg hlen]
        rw [List.any_eq_false]
        intro role hrole
        simp [evalRoleRule, h role hrole]
  · intro cfg u role r a d hrole hnone
    by_cases hf : roleFalsy u.role = true
    · simp [hasPermission, hf]
    · simp only [hasPermission, Bool.not_eq_true] at *
      rw [hf, if_neg (by simp)]
      rw [hrole]
      simp [evalRoleRule, hnone]

/-- Witness for C2 at concrete inputs: an absent role list, an absent role
field, a held role unknown to the table in multi-role mode, and the same in
single-role mode are all denied on the example table. -/
theorem hasPermission_gaps_denied_witness :
    hasPermission .multiRole exampleConfig
      (some ⟨none, none, ⟨"u1"⟩⟩) "todos" "read" none = false ∧
    hasPermission .singleRole exampleConfig
      (some ⟨none, none, ⟨"u1"⟩⟩) "todos" "read" none = false ∧
    hasPermission .multiRole exampleConfig
      (some ⟨none, some ["ghost"], ⟨"u1"⟩⟩) "todos" "read" none = false ∧
    hasPermission .singleRole exampleConfig
      (some ⟨some "ghost", none, ⟨"u1"⟩⟩) "todos" "read" none = false := by
  obtain ⟨h1, h2, h3, h4⟩ :=
    hasPermission_gaps_denied (P := TodoUser) (D := ToDo)
  refine ⟨h1 exampleConfig _ _ _ _ (Or.inl rfl),
          h2 exampleConfig _ _ _ _ (Or.inl rfl),
          h3 exampleConfig ⟨none, some ["ghost"], ⟨"u1"⟩⟩ _ _ _ ?_,
          h4 exampleConfig ⟨some "ghost", none, ⟨"u1"⟩⟩ "ghost" _ _ _ rfl rfl⟩
  intro role hrole
  simp only [Option.getD_some, List.mem_singleton] at hrole
  subst hrole
  rfl

/-- Claim C3: in multi-role mode, a principal holding a non-empty role sequence
is granted exactly when at least one held role individually grants the
permission under the single-role rule-evaluation semantics (`evalRoleRule`:
missing rule → deny, boolean rule → its value, conditional rule → its predicate
coalesced by `?? false`); and combining the held roles in any other order
yields the same decision, since the loop is a logical OR over the sequence. -/
theorem hasPermission_multiRole_or {P D : Type}
    (cfg : PermissionsConfig P D) (u : BaseAuthUser P) (rs : List String)
    (r a : String) (d : Option D)
    (hroles : u.roles = some rs) (hne : rs ≠ []) :
    (hasPermission .multiRole cfg (some u) r a d = true ↔
      ∃ role ∈ rs, evalRoleRule cfg role u r a d = true) ∧
    (∀ rs' : List String, List.Perm rs rs' →
      (rs'.any fun role => evalRoleRule cfg role u r a d) =
        hasPermission .multiRole cfg (some u) r a d) := by
  have hlen : ¬ rs.length = 0 := fun h0 => hne (List.length_eq_zero.mp h0)
  have hunfold : hasPermission .multiRole cfg (some u) r a d =
      rs.any fun role => evalRoleRule cfg role u r a d := by
    simp [hasPermission, hroles, hlen]
  constructor
  · rw [hunfold, List.any_eq_true]
  · intro rs' hp
    rw [hunfold]
    rw [Bool.eq_iff_iff, List.any_eq_true, List.any_eq_true]
    constructor
    · rintro ⟨x, hx, hfx⟩
      exact ⟨x, hp.mem_iff.mpr hx, hfx⟩
    · rintro ⟨x, hx, hfx⟩
      exact ⟨x, hp.mem_iff.mp hx, hfx⟩

/-- Witness for C3: a principal holding roles ["user", "admin"] may delete
todos on the example table because the held role "admin" grants it. -/
theorem hasPermission_multiRole_or_witness :
    hasPermission .multiRole exampleConfig
      (some ⟨none, some ["user", "admin"], ⟨"u2"⟩⟩) "todos" "delete" none =
      true :=
  (hasPermission_multiRole_or exampleConfig
      ⟨none, some ["user", "admin"], ⟨"u2"⟩⟩ ["user", "admin"]
      "todos" "delete" none rfl (by simp)).1.mpr
    ⟨"admin", by simp, rfl⟩

/-- Inversion of a successful `generatePermissionDocs` call: the rows came from
`buildRows` and the other three fields are determined by the configuration. -/
theorem generatePermissionDocs_ok {P D : Type} {mode : RoleModeBase}
    {cfg : PermissionsConfig P D} {docs : Option ActionDescriptionConfig}
    {rep : PermissionDocumentationReport}
    (h : generatePermissionDocs mode cfg docs = .ok rep) :
    buildRows cfg (cfg.map Prod.fst) docs
        (flatPairs (mapResourceNameToActions cfg)) = .ok rep.reportRows ∧
    rep.userRoleMode = mode ∧
    rep.report =
      buildReportMap cfg (cfg.map Prod.fst) (mapResourceNameToActions cfg) ∧
    rep.reportHeader =
      ⟨"resourceArea", false⟩ :: ⟨"permission", false⟩ ::
        ⟨"permissionDescription", false⟩ ::
        (cfg.map Prod.fst).map fun r => ⟨r, true⟩ := by
  unfold generatePermissionDocs at h
  split at h
  · exact absurd h (by simp)
  · next rows heq =>
    rw [Except.ok.injEq] at h
    subst h
    exact ⟨heq, rfl, rfl, rfl⟩

/-- Claim C4 counterexample: an engine over an empty permission table built
without a description table returns a report (with no rows at all) instead of
raising an error. -/
theorem generatePermissionDocs_no_docs_counterexample :
    generatePermissionDocs (P := Unit) (D := Unit) .singleRole [] none =
      .ok { userRoleMode := .singleRole
            report := []
            reportHeader :=
              [⟨"resourceArea", false⟩, ⟨"permission", false⟩,
               ⟨"permissionDescription", false⟩]
            reportRows := [] } := rfl

/-- Claim C4 as amended: without a description table, `generatePermissionDocs`
raises an error whenever the permission table configures at least one
(resource, action) pair — so it never returns a report carrying a blank or
placeholder description — while a table discovering no pair yields a report
with no rows.  `hasPermission` takes no description table at all, so it stays
usable either way. -/
theorem generatePermissionDocs_no_docs {P D : Type} (mode : RoleModeBase)
    (cfg : PermissionsConfig P D) :
    (flatPairs (mapResourceNameToActions cfg) ≠ [] →
      ∃ e, generatePermissionDocs mode cfg none = .error e) ∧
    (∀ rep, generatePermissionDocs mode cfg none = .ok rep →
      rep.reportRows = []) := by
  have hb : ∀ pairs : List (String × String), pairs ≠ [] →
      ∃ e, buildRows cfg (cfg.map Prod.fst) none pairs = .error e := by
    intro pairs hne
    cases pairs with
    | nil => exact absurd rfl hne
    | cons p rest =>
      obtain ⟨resource, action⟩ := p
      exact ⟨_, rfl⟩
  constructor
  · intro hne
    obtain ⟨e, he⟩ := hb _ hne
    refine ⟨e, ?_⟩
    unfold generatePermissionDocs
    rw [he]
  · intro rep h
    have hrows := (generatePermissionDocs_ok h).1
    cases hp : flatPairs (mapResourceNameToActions cfg) with
    | nil =>
      rw [hp] at hrows
      simp only [buildRows, Except.ok.injEq] at hrows
      exact hrows.symm
    | cons p rest =>
      obtain ⟨e, he⟩ := hb (p :: rest) (by simp)
      rw [hp, he] at hrows
      cases hrows

/-- Witness for the amended C4: the example table has configured pairs, so
generating documentation without a description table raises. -/
theorem generatePermissionDocs_no_docs_witness :
    ∃ e, generatePermissionDocs .singleRole exampleConfig none = .error e :=
  (generatePermissionDocs_no_docs .singleRole exampleConfig).1 (by decide)

/-- Membership in a JS set after `add`. -/
theorem mem_setAdd {s : List String} {a b : String} :
    a ∈ setAdd s b ↔ a ∈ s ∨ a = b := by
  unfold setAdd
  by_cases h : s.contains b = true
  · rw [if_pos h]
    have hb : b ∈ s := List.elem_iff.mp h
    constructor
    · exact Or.inl
    · rintro (h' | rfl)
      · exact h'
      · exact hb
  · rw [if_neg h]
    simp [List.mem_append]

/-- A JS set stays duplicate-free under `add`. -/
theorem nodup_setAdd {s : List String} (b : String) (hs : s.Nodup) :
    (setAdd s b).Nodup := by
  unfold setAdd
  by_cases h : s.contains b = true
  · rw [if_pos h]; exact hs
  · rw [if_neg h]
    have hb : b ∉ s := fun hmem => h (List.elem_iff.mpr hmem)
    simp [List.nodup_append, hs, hb]

/-- Membership after folding a batch of `add` calls into a JS set. -/
theorem mem_foldl_setAdd (ans : List String) :
    ∀ (s : List String) (a : String),
      a ∈ ans.foldl setAdd s ↔ a ∈ s ∨ a ∈ ans := by
  induction ans with
  | nil => intro s a; simp
  | cons b bs ih =>
    intro s a
    rw [List.foldl_cons, ih, mem_setAdd]
    simp only [List.mem_cons]
    tauto

/-- Duplicate-freedom after folding a batch of `add` calls into a JS set. -/
theorem nodup_foldl_setAdd (ans : List String) :
    ∀ s : List String, s.Nodup → (ans.foldl setAdd s).Nodup := by
  induction ans with
  | nil => intro s hs; exact hs
  | cons b bs ih =>
    intro s hs
    rw [List.foldl_cons]
    exact ih _ (nodup_setAdd b hs)

/-- `pairMem` unfolded over a cons cell. -/
theorem pairMem_cons {x : String × List String}
    {m : List (String × List String)} {r a : String} :
    pairMem (x :: m) r a ↔ (x.1 = r ∧ a ∈ x.2) ∨ pairMem m r a := by
  constructor
  · rintro ⟨e, he, h1, h2⟩
    rcases List.mem_cons.mp he with rfl | he'
    · exact Or.inl ⟨h1, h2⟩
    · exact Or.inr ⟨e, he', h1, h2⟩
  · rintro (⟨h1, h2⟩ | ⟨e, he, h1, h2⟩)
    · exact ⟨x, List.mem_cons_self _ _, h1, h2⟩
    · exact ⟨e, List.mem_cons_of_mem _ he, h1, h2⟩

/-- What `addActions` adds to the map: the old pairs plus the new batch. -/
theorem pairMem_addActions :
    ∀ (m : List (String × List String)) (rn : String) (ans : List String)
      (r a : String),
      pairMem (addActions m rn ans) r a ↔
        pairMem m r a ∨ (rn = r ∧ a ∈ ans) := by
  intro m
  induction m with
  | nil =>
    intro rn ans r a
    simp only [addActions]
    rw [pairMem_cons]
    simp only [pairMem, List.not_mem_nil, false_and, exists_false,
      exists_prop, or_false, false_or]
    rw [mem_foldl_setAdd]
    simp
  | cons hd tl ih =>
    intro rn ans r a
    obtain ⟨k, s⟩ := hd
    simp only [addActions]
    by_cases hk : (k == rn) = true
    · rw [if_pos hk]
      have hkr : k = rn := beq_iff_eq.mp hk
      subst hkr
      rw [pairMem_cons, pairMem_cons]
      simp only []
      rw [mem_foldl_setAdd]
      tauto
    · rw [if_neg hk]
      rw [pairMem_cons, pairMem_cons, ih]
      tauto

/-- Keys of the map after `addActions`: the old keys plus possibly the new
one. -/
theorem mem_keys_addActions :
    ∀ (m : List (String × List String)) (rn x : String) (ans : List String),
      x ∈ (addActions m rn ans).map Prod.fst ↔
        x ∈ m.map Prod.fst ∨ x = rn := by
  intro m
  induction m with
  | nil => intro rn x ans; simp [addActions]
  | cons hd tl ih =>
    intro rn x ans
    obtain ⟨k, s⟩ := hd
    simp only [addActions]
    by_cases hk : (k == rn) = true
    · rw [if_pos hk]
      have hkr : k = rn := beq_iff_eq.mp hk
      subst hkr
      simp only [List.map_cons, List.mem_cons]
      tauto
    · rw [if_neg hk]
      simp only [List.map_cons, List.mem_cons]
      rw [ih]
      tauto

/-- The map keys stay duplicate-free under `addActions`. -/
theorem nodup_keys_addActions :
    ∀ (m : List (String × List String)) (rn : String) (ans : List String),
      (m.map Prod.fst).Nodup → ((addActions m rn ans).map Prod.fst).Nodup := by
  intro m
  induction m with
  | nil => intro rn ans _; simp [addActions]
  | cons hd tl ih =>
    intro rn ans h
    obtain ⟨k, s⟩ := hd
    simp only [List.map_cons, List.nodup_cons] at h
    obtain ⟨hk1, hk2⟩ := h
    simp only [addActions]
    by_cases hk : (k == rn) = true
    · rw [if_pos hk]
      simp only [List.map_cons, List.nodup_cons]
      exact ⟨hk1, hk2⟩
    · rw [if_neg hk]
      simp only [List.map_cons, List.nodup_cons]
      refine ⟨?_, ih rn ans hk2⟩
      rw [mem_keys_addActions]
      rintro (h | rfl)
      · exact hk1 h
      · simp at hk

/-- Every action set in the map stays duplicate-free under `addActions`. -/
theorem nodup_values_addActions :
    ∀ (m : List (String × List String)) (rn : String) (ans : List String),
      (∀ e ∈ m, e.2.Nodup) → ∀ e ∈ addActions m rn ans, e.2.Nodup := by
  intro m
  induction m with
  | nil =>
    intro rn ans _ e he
    simp only [addActions, List.mem_singleton] at he
    subst he
    exact nodup_foldl_setAdd ans [] List.nodup_nil
  | cons hd tl ih =>
    intro rn ans h e he
    obtain ⟨k, s⟩ := hd
    simp only [addActions] at he
    by_cases hk : (k == rn) = true
    · rw [if_pos hk] at he
      rcases List.mem_cons.mp he with rfl | he'
      · exact nodup_foldl_setAdd ans s (h (k, s) (List.mem_cons_self _ _))
      · exact h e (List.mem_cons_of_mem _ he')
    · rw [if_neg hk] at he
      rcases List.mem_cons.mp he with rfl | he'
      · exact h (k, s) (List.mem_cons_self _ _)
      · exact ih rn ans (fun e' he'' => h e' (List.mem_cons_of_mem _ he'')) e he'

/-- `appearsInConfig` unfolded over a cons cell. -/
theorem appearsInConfig_cons {P D : Type}
    {e : String × List (String × List (String × PermissionValidation P D))}
    {cfg : PermissionsConfig P D} {r a : String} :
    appearsInConfig (e :: cfg) r a ↔
      (∃ re ∈ e.2, re.1 = r ∧ ∃ ae ∈ re.2, ae.1 = a) ∨
        appearsInConfig cfg r a := by
  constructor
  · rintro ⟨e', he', hrest⟩
    rcases List.mem_cons.mp he' with rfl | he''
    · exact Or.inl hrest
    · exact Or.inr ⟨e', he'', hrest⟩
  · rintro (h | ⟨e', he', hrest⟩)
    · exact ⟨e, List.mem_cons_self _ _, h⟩
    · exact ⟨e', List.mem_cons_of_mem _ he', hrest⟩

/-- What the inner discovery loop adds: the pairs configured in one role's
sub-configuration. -/
theorem pairMem_addRoleResources {P D : Type} :
    ∀ (rc : List (String × List (String × PermissionValidation P D)))
      (m : List (String × List String)) (r a : String),
      pairMem (addRoleResources m rc) r a ↔
        pairMem m r a ∨ ∃ re ∈ rc, re.1 = r ∧ ∃ ae ∈ re.2, ae.1 = a := by
  intro rc
  induction rc with
  | nil => intro m r a; simp [addRoleResources]
  | cons re rest ih =>
    intro m r a
    obtain ⟨rn, acts⟩ := re
    simp only [addRoleResources]
    rw [ih, pairMem_addActions]
    constructor
    · rintro ((hm | ⟨h1, h2⟩) | ⟨re', hre', h1, h2⟩)
      · exact Or.inl hm
      · rcases List.mem_map.mp h2 with ⟨ae, hae, hae2⟩
        exact Or.inr ⟨(rn, acts), List.mem_cons_self _ _, h1, ae, hae, hae2⟩
      · exact Or.inr ⟨re', List.mem_cons_of_mem _ hre', h1, h2⟩
    · rintro (hm | ⟨re', hre', h1, ae, hae, hae2⟩)
      · exact Or.inl (Or.inl hm)
      · rcases List.mem_cons.mp hre' with rfl | hre''
        · exact Or.inl (Or.inr ⟨h1, List.mem_map.mpr ⟨ae, hae, hae2⟩⟩)
        · exact Or.inr ⟨re', hre'', h1, ae, hae, hae2⟩

/-- What the outer discovery loop accumulates: every pair configured under any
role. -/
theorem pairMem_discoverPairsAux {P D : Type} :
    ∀ (cfg : PermissionsConfig P D) (m : List (String × List String))
      (r a : String),
      pairMem (discoverPairsAux m cfg) r a ↔
        pairMem m r a ∨ appearsInConfig cfg r a := by
  intro cfg
  induction cfg with
  | nil => intro m r a; simp [discoverPairsAux, appearsInConfig]
  | cons e rest ih =>
    intro m r a
    obtain ⟨role, rc⟩ := e
    simp only [discoverPairsAux]
    rw [ih, pairMem_addRoleResources, appearsInConfig_cons]
    dsimp only
    exact or_assoc

/-- The discovery loops keep the map keys and every action set
duplicate-free. -/
theorem nodup_addRoleResources {P D : Type} :
    ∀ (rc : List (String × List (String × PermissionValidation P D)))
      (m : List (String × List String)),
      (m.map Prod.fst).Nodup → (∀ e ∈ m, e.2.Nodup) →
      ((addRoleResources m rc).map Prod.fst).Nodup ∧
        ∀ e ∈ addRoleResources m rc, e.2.Nodup := by
  intro rc
  induction rc with
  | nil => intro m h1 h2; exact ⟨h1, h2⟩
  | cons re rest ih =>
    intro m h1 h2
    obtain ⟨rn, acts⟩ := re
    exact ih _ (nodup_keys_addActions m rn _ h1)
      (nodup_values_addActions m rn _ h2)

/-- The fully discovered resource→actions map has duplicate-free keys and
duplicate-free action sets. -/
theorem nodup_mapResourceNameToActions {P D : Type}
    (cfg : PermissionsConfig P D) :
    ((mapResourceNameToActions cfg).map Prod.fst).Nodup ∧
      ∀ e ∈ mapResourceNameToActions cfg, e.2.Nodup := by
  have haux : ∀ (c : PermissionsConfig P D) (m : List (String × List String)),
      (m.map Prod.fst).Nodup → (∀ e ∈ m, e.2.Nodup) →
      ((discoverPairsAux m c).map Prod.fst).Nodup ∧
        ∀ e ∈ discoverPairsAux m c, e.2.Nodup := by
    intro c
    induction c with
    | nil => intro m h1 h2; exact ⟨h1, h2⟩
    | cons e rest ih =>
      intro m h1 h2
      obtain ⟨role, rc⟩ := e
      obtain ⟨h1', h2'⟩ := nodup_addRoleResources rc m h1 h2
      exact ih _ h1' h2'
  exact haux cfg [] (by simp) (by simp)

/-- Membership in the flattened pair list is membership in the map. -/
theorem mem_flatPairs :
    ∀ (m : List (String × List String)) (r a : String),
      (r, a) ∈ flatPairs m ↔ pairMem m r a := by
  intro m
  induction m with
  | nil => intro r a; simp [flatPairs, pairMem]
  | cons e rest ih =>
    intro r a
    obtain ⟨rn, ans⟩ := e
    simp only [flatPairs, List.mem_append, List.mem_map]
    rw [ih, pairMem_cons]
    constructor
    · rintro (⟨x, hx, hpair⟩ | h)
      · simp only [Prod.mk.injEq] at hpair
        obtain ⟨rfl, rfl⟩ := hpair
        exact Or.inl ⟨rfl, hx⟩
      · exact Or.inr h
    · rintro (⟨h1, h2⟩ | h)
      · exact Or.inl ⟨a, h2, by rw [show rn = r from h1]⟩
      · exact Or.inr h

/-- The resource component of a flattened pair is a key of the map. -/
theorem fst_mem_of_mem_flatPairs :
    ∀ (m : List (String × List String)) (r a : String),
      (r, a) ∈ flatPairs m → r ∈ m.map Prod.fst := by
  intro m r a h
  obtain ⟨e, he, h1, _⟩ := (mem_flatPairs m r a).mp h
  exact List.mem_map.mpr ⟨e, he, h1⟩

/-- A map with duplicate-free keys and duplicate-free action sets flattens to
a duplicate-free pair list. -/
theorem nodup_flatPairs :
    ∀ m : List (String × List String),
      (m.map Prod.fst).Nodup → (∀ e ∈ m, e.2.Nodup) →
      (flatPairs m).Nodup := by
  intro m
  induction m with
  | nil => intro _ _; simp [flatPairs]
  | cons e rest ih =>
    intro h1 h2
    obtain ⟨rn, ans⟩ := e
    simp only [List.map_cons, List.nodup_cons] at h1
    simp only [flatPairs]
    rw [List.nodup_append]
    refine ⟨?_, ih h1.2 (fun e' he' => h2 e' (List.mem_cons_of_mem _ he')), ?_⟩
    · refine List.Nodup.map ?_ (h2 (rn, ans) (List.mem_cons_self _ _))
      intro a b hab
      injection hab with _ hab2
    · intro p hp hp'
      obtain ⟨a, _, rfl⟩ := List.mem_map.mp hp
      exact h1.1 (fst_mem_of_mem_flatPairs rest rn a hp')

/-- Shape of the rows produced by a successful `buildRows`: one row per pair in
order, each `[resource, action, description, ...one status per role]`. -/
theorem buildRows_ok_shape {P D : Type} (cfg : PermissionsConfig P D)
    (roles : List String) (docs : Option ActionDescriptionConfig) :
    ∀ (pairs : List (String × String)) (rows : List (List String)),
      buildRows cfg roles docs pairs = .ok rows →
      rows.map (fun row => row.take 2) = pairs.map (fun p => [p.1, p.2]) ∧
      ∀ row ∈ rows, ∃ resource action d,
        (resource, action) ∈ pairs ∧
        lookupDescription docs resource action = .ok d ∧
        row = resource :: action :: d ::
          roles.map fun role => cellStatus cfg role resource action := by
  intro pairs
  induction pairs with
  | nil =>
    intro rows h
    simp only [buildRows, Except.ok.injEq] at h
    subst h
    simp
  | cons p rest ih =>
    intro rows h
    obtain ⟨resource, action⟩ := p
    simp only [buildRows] at h
    split at h
    · exact absurd h (by simp)
    · next row heq =>
      split at h
      · exact absurd h (by simp)
      · next rows' heq2 =>
        rw [Except.ok.injEq] at h
        subst h
        obtain ⟨ih1, ih2⟩ := ih rows' heq2
        unfold buildRow at heq
        cases hd : lookupDescription docs resource action with
        | error e => rw [hd] at heq; cases heq
        | ok d =>
          rw [hd] at heq
          replace heq : Except.ok (ε := String)
              (resource :: action :: d ::
                roles.map fun role => cellStatus cfg role resource action) =
              .ok row := heq
          rw [Except.ok.injEq] at heq
          subst heq
          constructor
          · simp only [List.map_cons]
            rw [ih1]
            rfl
          · intro row hrow
            rcases List.mem_cons.mp hrow with rfl | hrow'
            · exact ⟨resource, action, d, List.mem_cons_self _ _, hd, rfl⟩
            · obtain ⟨r', a', d', hmem, hld, hshape⟩ := ih2 row hrow'
              exact ⟨r', a', d', List.mem_cons_of_mem _ hmem, hld, hshape⟩

/-- Claim C5: the report contains exactly one row for every (resource, action)
pair configured under any role — the flattened discovery list enumerates, in
order and without duplicates, exactly the pairs appearing under some role, and
the rows follow it — and every row carries one status cell per top-level role
key of the table. -/
theorem report_completeness {P D : Type} (mode : RoleModeBase)
    (cfg : PermissionsConfig P D) (docs : Option ActionDescriptionConfig)
    (rep : PermissionDocumentationReport)
    (h : generatePermissionDocs mode cfg docs = .ok rep) :
    rep.reportRows.map (fun row => row.take 2) =
      (flatPairs (mapResourceNameToActions cfg)).map (fun p => [p.1, p.2]) ∧
    (flatPairs (mapResourceNameToActions cfg)).Nodup ∧
    (∀ resource action,
      (resource, action) ∈ flatPairs (mapResourceNameToActions cfg) ↔
        appearsInConfig cfg resource action) ∧
    (∀ row ∈ rep.reportRows, row.length = 3 + cfg.length) := by
  obtain ⟨hrows, _, _, _⟩ := generatePermissionDocs_ok h
  obtain ⟨h1, h2⟩ := buildRows_ok_shape cfg (cfg.map Prod.fst) docs _ _ hrows
  refine ⟨h1, ?_, ?_, ?_⟩
  · obtain ⟨hk, hv⟩ := nodup_mapResourceNameToActions cfg
    exact nodup_flatPairs _ hk hv
  · intro resource action
    rw [mem_flatPairs]
    unfold mapResourceNameToActions
    rw [pairMem_discoverPairsAux]
    simp [pairMem]
  · intro row hrow
    obtain ⟨r', a', d', _, _, hshape⟩ := h2 row hrow
    subst hshape
    simp only [List.length_cons, List.length_map]
    omega

/-- Witness for C5 on the example table: the rows enumerate the four
configured pairs, and the pair configured only under betaTester appears. -/
theorem report_completeness_witness :
    exampleReport.reportRows.map (fun row => row.take 2) =
      [["todos", "read"], ["todos", "write"], ["todos", "delete"],
       ["betaResource", "view"]] ∧
    appearsInConfig exampleConfig "betaResource" "view" := by
  have h := report_completeness .singleRole exampleConfig (some exampleDocs)
    exampleReport rfl
  exact ⟨h.1.trans rfl,
    (h.2.2.1 "betaResource" "view").mp (by decide)⟩

/-- `List.lookup` unfolded over a cons cell. -/
theorem lookup_cons {α β : Type} [BEq α] (k : α) (x : α × β)
    (l : List (α × β)) :
    List.lookup k (x :: l) = if k == x.1 then some x.2 else List.lookup k l := by
  obtain ⟨a, b⟩ := x
  cases hk : k == a <;> simp [List.lookup, hk]

/-- A successful lookup in a list mapped to (key, value) entries finds an
underlying element with that key. -/
theorem lookup_map_entry {α β γ : Type} [BEq α] [LawfulBEq α]
    (f : α × β → γ) :
    ∀ (l : List (α × β)) (k : α) (v : γ),
      List.lookup k (l.map fun e => (e.1, f e)) = some v →
      ∃ e ∈ l, e.1 = k ∧ v = f e := by
  intro l
  induction l with
  | nil => intro k v h; cases h
  | cons e rest ih =>
    intro k v h
    rw [List.map_cons, lookup_cons] at h
    by_cases hk : (k == e.1) = true
    · rw [if_pos hk] at h
      rw [Option.some.injEq] at h
      exact ⟨e, List.mem_cons_self _ _, (beq_iff_eq.mp hk).symm, h.symm⟩
    · rw [if_neg hk] at h
      obtain ⟨e', he', h1, h2⟩ := ih k v h
      exact ⟨e', List.mem_cons_of_mem _ he', h1, h2⟩

/-- A successful lookup in a key list mapped to (key, g key) entries returns
the value at the looked-up key. -/
theorem lookup_map_key {α γ : Type} [BEq α] [LawfulBEq α] (g : α → γ) :
    ∀ (l : List α) (k : α) (v : γ),
      List.lookup k (l.map fun x => (x, g x)) = some v → v = g k := by
  intro l
  induction l with
  | nil => intro k v h; cases h
  | cons x xs ih =>
    intro k v h
    rw [List.map_cons, lookup_cons] at h
    by_cases hk : (k == x) = true
    · rw [if_pos hk] at h
      rw [Option.some.injEq] at h
      rw [beq_iff_eq.mp hk]
      exact h.symm
    · rw [if_neg hk] at h
      exact ih k v h

/-- The cell computation of the report generator agrees pointwise with the
optional-chained rule lookup of the decision engine. -/
theorem cellStatus_eq {P D : Type} (cfg : PermissionsConfig P D)
    (role resource action : String) :
    cellStatus cfg role resource action =
      match lookupRule cfg role resource action with
      | none => "Denied"
      | some (.bool b) => if b then "Allowed" else "Denied"
      | some (.cond _ d) => "Conditional: " ++ d.getD "undefined" := by
  unfold cellStatus lookupRule
  cases h1 : List.lookup role cfg with
  | none => rfl
  | some rc =>
    dsimp only
    rw [Option.some_bind]
    cases h2 : List.lookup resource rc with
    | none => rfl
    | some ac =>
      dsimp only
      rw [Option.some_bind]

/-- Every status cell found in the nested `report` record of a generated
report is the `cellStatus` of its (role, resource, action) triple. -/
theorem reportCell_eq_cellStatus {P D : Type} {mode : RoleModeBase}
    {cfg : PermissionsConfig P D} {docs : Option ActionDescriptionConfig}
    {rep : PermissionDocumentationReport}
    (h : generatePermissionDocs mode cfg docs = .ok rep)
    (resource action role c : String) :
    reportCell rep resource action role = some c →
    c = cellStatus cfg role resource action := by
  intro hc
  obtain ⟨_, _, hreport, _⟩ := generatePermissionDocs_ok h
  unfold reportCell at hc
  rw [hreport] at hc
  unfold buildReportMap at hc
  rw [Option.bind_eq_some] at hc
  obtain ⟨am, ham, hc⟩ := hc
  rw [Option.bind_eq_some] at hc
  obtain ⟨rm, hrm, hc⟩ := hc
  obtain ⟨ra, _, hra1, ham2⟩ := lookup_map_entry _ _ _ _ ham
  subst ham2
  have hrm2 := lookup_map_key _ _ _ _ hrm
  subst hrm2
  have hfin := lookup_map_key _ _ _ _ hc
  rw [hfin, hra1]

/-- Claim C6: a role with no configuration entry covering a (resource, action)
pair — the role key missing, the resource missing under the role, or the
action missing under the resource — gets the status cell `Denied` in the
generated report, and `hasPermission` denies the same role. -/
theorem unspecified_is_denied {P D : Type} (mode : RoleModeBase)
    (cfg : PermissionsConfig P D) (docs : Option ActionDescriptionConfig)
    (rep : PermissionDocumentationReport) (role resource action : String)
    (h : generatePermissionDocs mode cfg docs = .ok rep)
    (hmiss : lookupRule cfg role resource action = none) :
    cellStatus cfg role resource action = "Denied" ∧
    (∀ c, reportCell rep resource action role = some c → c = "Denied") ∧
    (∀ (u : BaseAuthUser P) (d : Option D), u.role = some role →
      hasPermission .singleRole cfg (some u) resource action d = false) ∧
    (∀ (u : BaseAuthUser P) (d : Option D),
      evalRoleRule cfg role u resource action d = false) := by
  have hcell : cellStatus cfg role resource action = "Denied" := by
    rw [cellStatus_eq, hmiss]
  refine ⟨hcell, ?_, ?_, ?_⟩
  · intro c hc
    rw [reportCell_eq_cellStatus h resource action role c hc]
    exact hcell
  · intro u d hrole
    simp only [hasPermission, hrole]
    by_cases hr : role = ""
    · subst hr; simp [roleFalsy]
    · rw [if_neg (by simp [roleFalsy, hr])]
      simp [evalRoleRule, hmiss]
  · intro u d
    simp [evalRoleRule, hmiss]

/-- Witness for C6: the role `user` has no entry for (betaResource, view), so
its report cell is Denied and `hasPermission` denies it. -/
theorem unspecified_is_denied_witness :
    cellStatus exampleConfig "user" "betaResource" "view" = "Denied" ∧
    hasPermission .singleRole exampleConfig
      (some ⟨some "user", none, ⟨"u1"⟩⟩) "betaResource" "view" none = false := by
  have h := unspecified_is_denied .singleRole exampleConfig (some exampleDocs)
    exampleReport "user" "betaResource" "view" rfl rfl
  exact ⟨h.1, h.2.2.1 ⟨some "user", none, ⟨"u1"⟩⟩ none rfl⟩

/-- The role columns of the generated header, in order, are exactly the
mapped role names. -/
theorem filter_isRole_map (roles : List String) :
    (((roles.map fun r => (⟨r, true⟩ : HeaderColumn)).filter
      fun c => c.isRole).map HeaderColumn.columnName) = roles := by
  induction roles with
  | nil => rfl
  | cons r rs ih =>
    simp only [List.map_cons, List.filter_cons_of_pos, List.map]
    rw [ih]

/-- Claim C7: `generatePermissionDocs` is deterministic — the generator is a
pure function of the captured table and description configuration, so two
consecutive calls yield structurally identical reports — and the role-column
order follows the table key order while the row order follows the discovery
order derived from it. -/
theorem generatePermissionDocs_deterministic {P D : Type}
    (mode : RoleModeBase) (cfg : PermissionsConfig P D)
    (docs : Option ActionDescriptionConfig) :
    generatePermissionDocs mode cfg docs = generatePermissionDocs mode cfg docs ∧
    ∀ rep, generatePermissionDocs mode cfg docs = .ok rep →
      ((rep.reportHeader.filter fun c => c.isRole).map HeaderColumn.columnName =
        cfg.map Prod.fst ∧
       rep.reportRows.map (fun row => row.take 2) =
        (flatPairs (mapResourceNameToActions cfg)).map fun p => [p.1, p.2]) := by
  refine ⟨rfl, ?_⟩
  intro rep h
  obtain ⟨hrows, _, _, hheader⟩ := generatePermissionDocs_ok h
  constructor
  · rw [hheader]
    exact filter_isRole_map (cfg.map Prod.fst)
  · exact (buildRows_ok_shape cfg _ docs _ _ hrows).1

/-- Witness for C7: on the example table the role columns come out in the
key order of the configuration. -/
theorem generatePermissionDocs_deterministic_witness :
    (exampleReport.reportHeader.filter fun c => c.isRole).map
      HeaderColumn.columnName = ["admin", "moderator", "user", "betaTester"] :=
  (((generatePermissionDocs_deterministic .singleRole exampleConfig
      (some exampleDocs)).2 exampleReport rfl).1).trans rfl

/-- Claim C8: a conditional rule renders the cell as the string
`Conditional: ` followed by a description — the rule's own description when
present, otherwise the non-empty fallback placeholder text `undefined`
produced by the template literal — both in the cell computation and in the
nested `report` record of a generated report. -/
theorem conditional_cell_described {P D : Type} (mode : RoleModeBase)
    (cfg : PermissionsConfig P D) (docs : Option ActionDescriptionConfig)
    (rep : PermissionDocumentationReport) (role resource action : String)
    (cf : Option (BaseAuthUser P → Option D → Option Bool))
    (desc : Option String)
    (h : generatePermissionDocs mode cfg docs = .ok rep)
    (hrule : lookupRule cfg role resource action = some (.cond cf desc)) :
    cellStatus cfg role resource action =
      "Conditional: " ++ desc.getD "undefined" ∧
    (∀ c, reportCell rep resource action role = some c →
      c = "Conditional: " ++ desc.getD "undefined") ∧
    (∀ d, desc = some d →
      cellStatus cfg role resource action = "Conditional: " ++ d) ∧
    (desc = none →
      cellStatus cfg role resource action = "Conditional: undefined" ∧
        ("undefined" : String) ≠ "") := by
  have hcell : cellStatus cfg role resource action =
      "Conditional: " ++ desc.getD "undefined" := by
    rw [cellStatus_eq, hrule]
  refine ⟨hcell, ?_, ?_, ?_⟩
  · intro c hc
    rw [reportCell_eq_cellStatus h resource action role c hc]
    exact hcell
  · intro d hd
    subst hd
    exact hcell
  · intro hd
    subst hd
    exact ⟨hcell, by decide⟩

/-- Witness for C8: the conditional delete rule of the role `user` carries its
own description, which the example report cell shows. -/
theorem conditional_cell_described_witness :
    cellStatus exampleConfig "user" "todos" "delete" =
      "Conditional: Only the author can delete their own to-dos" ∧
    reportCell exampleReport "todos" "delete" "user" =
      some "Conditional: Only the author can delete their own to-dos" := by
  have h := conditional_cell_described .singleRole exampleConfig
    (some exampleDocs) exampleReport "user" "todos" "delete"
    (some todoDeleteCheck)
    (some "Only the author can delete their own to-dos") rfl rfl
  exact ⟨h.1.trans rfl, rfl⟩

/-- Claim C9: when the matched rule is conditional, `hasPermission` calls the
predicate with the principal and the resource data and returns its result,
with an absent predicate or a nullish (missing/non-boolean) predicate result
coalesced to `false` by `?.` and `?? false` — never an error. -/
theorem conditional_predicate_invoked {P D : Type}
    (cfg : PermissionsConfig P D) (role resource action : String)
    (cf : Option (BaseAuthUser P → Option D → Option Bool))
    (desc : Option String) (u : BaseAuthUser P) (d : Option D)
    (hrule : lookupRule cfg role resource action = some (.cond cf desc)) :
    evalRoleRule cfg role u resource action d = jsCheckCall cf u d ∧
    (u.role = some role → role ≠ "" →
      hasPermission .singleRole cfg (some u) resource action d =
        jsCheckCall cf u d) ∧
    (∀ rs, u.roles = some rs → role ∈ rs → jsCheckCall cf u d = true →
      hasPermission .multiRole cfg (some u) resource action d = true) ∧
    (cf = none → jsCheckCall cf u d = false) ∧
    (∀ f, cf = some f → f u d = none → jsCheckCall cf u d = false) ∧
    (∀ f b, cf = some f → f u d = some b → jsCheckCall cf u d = b) := by
  have h1 : evalRoleRule cfg role u resource action d = jsCheckCall cf u d := by
    simp [evalRoleRule, hrule, evalValidation]
  refine ⟨h1, ?_, ?_, ?_, ?_, ?_⟩
  · intro hrole hne
    simp only [hasPermission, hrole]
    rw [if_neg (by simp [roleFalsy, hne])]
    simpa using h1
  · intro rs hrs hmem hcall
    simp only [hasPermission, hrs]
    have hne : ¬ rs.length = 0 := by
      intro h0
      rw [List.length_eq_zero.mp h0] at hmem
      cases hmem
    rw [if_neg hne, List.any_eq_true]
    exact ⟨role, hmem, h1.trans hcall⟩
  · intro hcf
    subst hcf
    rfl
  · intro f hcf hres
    subst hcf
    simp [jsCheckCall, hres]
  · intro f b hcf hres
    subst hcf
    simp [jsCheckCall, hres]

/-- Witness for C9: the author may delete their own to-do, the predicate being
invoked with the principal and the resource data. -/
theorem conditional_predicate_invoked_witness :
    hasPermission .singleRole exampleConfig
      (some ⟨some "user", none, ⟨"u1"⟩⟩) "todos" "delete"
      (some ⟨"title", "text", "u1"⟩) = true := by
  have h := conditional_predicate_invoked exampleConfig "user" "todos"
    "delete" (some todoDeleteCheck)
    (some "Only the author can delete their own to-dos")
    ⟨some "user", none, ⟨"u1"⟩⟩ (some ⟨"title", "text", "u1"⟩) rfl
  exact (h.2.1 rfl (by decide)).trans rfl

/-- Claim C10: the header of every generated report is exactly the three
non-role columns `resourceArea`, `permission`, `permissionDescription`
followed by one role column per table key in key order, and every row is
`[resource, action, description, then one status per role]` in that same
order, of length 3 plus the number of roles. -/
theorem report_header_row_shape {P D : Type} (mode : RoleModeBase)
    (cfg : PermissionsConfig P D) (docs : Option ActionDescriptionConfig)
    (rep : PermissionDocumentationReport)
    (h : generatePermissionDocs mode cfg docs = .ok rep) :
    rep.reportHeader =
      ⟨"resourceArea", false⟩ :: ⟨"permission", false⟩ ::
        ⟨"permissionDescription", false⟩ ::
        (cfg.map Prod.fst).map (fun r => ⟨r, true⟩) ∧
    ∀ row ∈ rep.reportRows, ∃ resource action d,
      lookupDescription docs resource action = .ok d ∧
      row = resource :: action :: d ::
        (cfg.map Prod.fst).map (fun role => cellStatus cfg role resource action) ∧
      row.length = 3 + cfg.length := by
  obtain ⟨hrows, _, _, hheader⟩ := generatePermissionDocs_ok h
  refine ⟨hheader, ?_⟩
  intro row hrow
  obtain ⟨r', a', d', _, hld, hshape⟩ :=
    (buildRows_ok_shape cfg _ docs _ _ hrows).2 row hrow
  refine ⟨r', a', d', hld, hshape, ?_⟩
  subst hshape
  simp only [List.length_cons, List.length_map]
  omega

/-- Witness for C10: the header of the example report, spelled out. -/
theorem report_header_row_shape_witness :
    exampleReport.reportHeader =
      [⟨"resourceArea", false⟩, ⟨"permission", false⟩,
       ⟨"permissionDescription", false⟩, ⟨"admin", true⟩,
       ⟨"moderator", true⟩, ⟨"user", true⟩, ⟨"betaTester", true⟩] :=
  ((report_header_row_shape .singleRole exampleConfig (some exampleDocs)
      exampleReport rfl).1).trans rfl

end RoleBaker
